import Mathlib

/-!
A shallow embedding of the core of the debctl repository: the typed option
map, the one-line-entry grammar, the deb822 stanza serializer and the
install/convert state machine, translated from src/option.rs, src/parse.rs,
src/entry.rs and src/convert.rs.

Rust strings are modelled as lists of characters (Str).  Rust
str::to_lowercase and char::is_whitespace are modelled with the ASCII
functions Char.toLower / an ASCII whitespace predicate; every literal the
code compares against (option-name aliases, yes/true/no/false) is ASCII, so
the distinction does not affect the embedded comparisons.
-/

namespace Debctl

/-- Characters of a Rust string, in order (UTF-8 byte order on Rust strings
coincides with the code-point order used here). -/
abbrev Str := List Char

/-- ASCII whitespace, modelling char::is_whitespace for the characters the
program actually handles. -/
def isWS (c : Char) : Bool := c == ' ' || c == '\t' || c == '\n' || c == '\r'

/-- Models Rust s.trim().is_empty(): the string has no non-whitespace
character. -/
def isBlank (s : Str) : Bool := s.all isWS

/-- Models str::to_lowercase (ASCII case mapping). -/
def lowerStr (s : Str) : Str := s.map Char.toLower

/-- The io::ErrorKind values the code discriminates on. -/
inductive IoErrorKind where
  | NotFound
  | PermissionDenied
  | AlreadyExists
deriving DecidableEq, Repr

/-- The user-facing error kinds of src/error.rs that the embedded operations
can produce.  Message texts and the reason payload of MalformedOneLineEntry
are not modelled; Generic stands for an io error propagated behind an eyre
wrap_err rather than converted to a specific kind. -/
inductive DebctlError where
  | InvalidOptionName (name : Str)
  | MalformedOption (option : Str)
  | NewSourceFileAlreadyExists (path : Str)
  | PermissionDenied
  | MalformedOneLineEntry
  | ConflictingKeyLocations
  | ConvertInFileNotFound (path : Str)
  | ConvertOutFileAlreadyExists (path : Str)
  | ConvertBackupAlreadyExists (path : Str)
  | Generic (kind : IoErrorKind)
deriving DecidableEq, Repr

/-- KnownOptionName from src/option.rs, constructors in the source's
declaration order; the derived Ord (and the canonical serialization order)
is this declaration order. -/
inductive KnownOptionName where
  | RepolibName
  | Enabled
  | Types
  | Uris
  | Suites
  | Components
  | SignedBy
  | Trusted
  | Architectures
  | Languages
  | Targets
  | PDiffs
  | ByHash
  | AllowInsecure
  | AllowWeak
  | AllowDowngradeToInsecure
  | CheckValidUntil
  | ValidUntilMin
  | ValidUntilMax
deriving DecidableEq, Repr, Fintype

/-- The declaration index of a KnownOptionName variant: the order the derived
Ord compares by. -/
def knownIdx : KnownOptionName → Nat
  | .RepolibName => 0
  | .Enabled => 1
  | .Types => 2
  | .Uris => 3
  | .Suites => 4
  | .Components => 5
  | .SignedBy => 6
  | .Trusted => 7
  | .Architectures => 8
  | .Languages => 9
  | .Targets => 10
  | .PDiffs => 11
  | .ByHash => 12
  | .AllowInsecure => 13
  | .AllowWeak => 14
  | .AllowDowngradeToInsecure => 15
  | .CheckValidUntil => 16
  | .ValidUntilMin => 17
  | .ValidUntilMax => 18

/-- KnownOptionName::iter(): every variant, in declaration order. -/
def knownOrder : List KnownOptionName :=
  [.RepolibName, .Enabled, .Types, .Uris, .Suites, .Components, .SignedBy,
   .Trusted, .Architectures, .Languages, .Targets, .PDiffs, .ByHash,
   .AllowInsecure, .AllowWeak, .AllowDowngradeToInsecure, .CheckValidUntil,
   .ValidUntilMin, .ValidUntilMax]

/-- KnownOptionName::to_deb822. -/
def KnownOptionName.to_deb822 : KnownOptionName → Str
  | .Types => "Types".toList
  | .Uris => "URIs".toList
  | .Suites => "Suites".toList
  | .Components => "Components".toList
  | .Enabled => "Enabled".toList
  | .Architectures => "Architectures".toList
  | .Languages => "Languages".toList
  | .Targets => "Targets".toList
  | .PDiffs => "PDiffs".toList
  | .ByHash => "By-Hash".toList
  | .AllowInsecure => "Allow-Insecure".toList
  | .AllowWeak => "Allow-Weak".toList
  | .AllowDowngradeToInsecure => "Allow-Downgrade-To-Insecure".toList
  | .Trusted => "Trusted".toList
  | .SignedBy => "Signed-By".toList
  | .CheckValidUntil => "Check-Valid-Until".toList
  | .ValidUntilMin => "Valid-Until-Min".toList
  | .ValidUntilMax => "Valid-Until-Max".toList
  | .RepolibName => "X-Repolib-Name".toList

/-- KnownOptionName::from_str: case-insensitive alias table. -/
def KnownOptionName.from_str (s : Str) : Except DebctlError KnownOptionName :=
  let low := lowerStr s
  if low == "types".toList then .ok .Types
  else if low == "uris".toList then .ok .Uris
  else if low == "suites".toList then .ok .Suites
  else if low == "components".toList then .ok .Components
  else if low == "enabled".toList then .ok .Enabled
  else if low == "architectures".toList || low == "arch".toList then .ok .Architectures
  else if low == "languages".toList || low == "lang".toList then .ok .Languages
  else if low == "targets".toList || low == "target".toList then .ok .Targets
  else if low == "pdiffs".toList then .ok .PDiffs
  else if low == "by-hash".toList then .ok .ByHash
  else if low == "allow-insecure".toList then .ok .AllowInsecure
  else if low == "allow-weak".toList then .ok .AllowWeak
  else if low == "allow-downgrade-to-insecure".toList then .ok .AllowDowngradeToInsecure
  else if low == "trusted".toList then .ok .Trusted
  else if low == "signed-by".toList then .ok .SignedBy
  else if low == "check-valid-until".toList then .ok .CheckValidUntil
  else if low == "valid-until-min".toList then .ok .ValidUntilMin
  else if low == "valid-until-max".toList then .ok .ValidUntilMax
  else .error (.InvalidOptionName s)

/-- OptionName from src/option.rs: a known name or a user-supplied custom
name. -/
inductive OptionName where
  | Known (name : KnownOptionName)
  | Custom (name : Str)
deriving DecidableEq, Repr

/-- OptionName::is_known. -/
def OptionName.is_known : OptionName → Bool
  | .Known _ => true
  | .Custom _ => false

/-- OptionName::to_deb822. -/
def OptionName.to_deb822 : OptionName → Str
  | .Known k => k.to_deb822
  | .Custom s => s

/-- A list of strings (named so the OptionValue constructors below can refer
to it without being shadowed by their own names). -/
abbrev StrList := List Str

/-- A boolean (same shadowing workaround). -/
abbrev BoolV := Bool

/-- OptionValue from src/option.rs. -/
inductive OptionValue where
  | String (value : Str)
  | List (values : StrList)
  | Bool (value : BoolV)
  | Multiline (lines : StrList)
deriving DecidableEq, Repr

/-- is_truthy from src/option.rs. -/
def is_truthy (s : Str) : Bool :=
  lowerStr s == "yes".toList || lowerStr s == "true".toList

/-- is_falsey from src/option.rs. -/
def is_falsey (s : Str) : Bool :=
  lowerStr s == "no".toList || lowerStr s == "false".toList

/-- The From of Cow str for OptionValue: truthy and falsey spellings collapse
to Bool, anything else is kept as a literal String value. -/
def OptionValue.from_str (s : Str) : OptionValue :=
  if is_truthy s then .Bool true
  else if is_falsey s then .Bool false
  else .String s

/-- The From of Vec String for OptionValue: a one-element vector collapses to
the single string conversion, anything else becomes a List value. -/
def OptionValue.from_vec : StrList → OptionValue
  | [single] => OptionValue.from_str single
  | l => .List l

/-- OptionValue::is_empty. -/
def OptionValue.is_empty : OptionValue → BoolV
  | .String v => isBlank v
  | .List l => l.isEmpty
  | .Bool _ => false
  | .Multiline l => l.isEmpty

/-- Vec::join with a separator, for List values. -/
def joinSep (sep : Str) : List Str → Str
  | [] => []
  | [x] => x
  | x :: xs => x ++ sep ++ joinSep sep xs

/-- OptionValue::to_deb822: the value's encoding in a stanza.  Multiline
values get a leading blank line, a space before every line, and a dot in
place of each blank line. -/
def OptionValue.to_deb822 : OptionValue → Str
  | .String v => v
  | .List l => joinSep [' '] l
  | .Bool true => "yes".toList
  | .Bool false => "no".toList
  | .Multiline lines =>
      '\n' :: (lines.map (fun line =>
        ' ' :: ((if isBlank line then ['.'] else line) ++ ['\n']))).flatten

/-- SigningKey from src/source.rs: key material as a file path or an inlined
value. -/
inductive SigningKey where
  | File (path : Str)
  | Inline (value : OptionValue)

/-- OptionMap from src/option.rs.  The Rust type is a newtype around an
unordered HashMap; the embedding wraps an association list with HashMap
insert semantics (replace the binding in place when the key is present,
append otherwise).  The canonical read-out is OptionMap.options, proved
independent of the list order for maps with distinct keys. -/
structure OptionMap where
  entries : List (OptionName × OptionValue)
deriving DecidableEq, Repr

/-- OptionMap::new. -/
def OptionMap.new : OptionMap := ⟨[]⟩

/-- HashMap::insert: replace the value if the key is present, append
otherwise. -/
def hashInsert : List (OptionName × OptionValue) → OptionName → OptionValue →
    List (OptionName × OptionValue)
  | [], k, v => [(k, v)]
  | p :: rest, k, v =>
      if p.1 = k then (p.1, v) :: rest else p :: hashInsert rest k v

/-- OptionMap::insert: an empty value is skipped. -/
def OptionMap.insert (m : OptionMap) (k : OptionName) (v : OptionValue) :
    OptionMap :=
  if v.is_empty then m else ⟨hashInsert m.entries k v⟩

/-- OptionMap::contains. -/
def OptionMap.contains (m : OptionMap) (k : OptionName) : Bool :=
  (m.entries.find? (fun p => p.1 == k)).isSome

/-- HashMap::get_key_value, reduced to its value component (the stored key
equals the probe key). -/
def OptionMap.find_value (m : OptionMap) (k : OptionName) : Option OptionValue :=
  (m.entries.find? (fun p => p.1 == k)).map (fun p => p.2)

/-- OptionMap::insert_key: inserting key material under the reserved
Signed-By name fails when the name is already bound. -/
def OptionMap.insert_key (m : OptionMap) (key : SigningKey) :
    Except DebctlError OptionMap :=
  if m.contains (.Known .SignedBy) then .error .ConflictingKeyLocations
  else
    .ok (m.insert (.Known .SignedBy)
      (match key with
       | .File path => OptionValue.from_str path
       | .Inline v => v))

/-- The FromIterator impl for OptionMap: collect the pairs straight into the
hash map, with no empty-value check. -/
def OptionMap.from_iter (l : List (OptionName × OptionValue)) : OptionMap :=
  ⟨l.foldl (fun es p => hashInsert es p.1 p.2) []⟩

/-- Byte-lexicographic order on strings, the comparison the derived Ord on
Custom option names sorts by. -/
def lexLeB : Str → Str → Bool
  | [], _ => true
  | _ :: _, [] => false
  | a :: as, b :: bs =>
      if a < b then true else if b < a then false else lexLeB as bs

/-- The derived Ord on OptionName: Known variants by declaration order,
every Known before every Custom, Custom names byte-lexicographically. -/
def nameLeB : OptionName → OptionName → Bool
  | .Known a, .Known b => knownIdx a ≤ knownIdx b
  | .Known _, .Custom _ => true
  | .Custom _, .Known _ => false
  | .Custom a, .Custom b => lexLeB a b

/-- The sort relation of OptionMap::options on (name, value) pairs: compare
the names. -/
def pairLe (p q : OptionName × OptionValue) : Prop := nameLeB p.1 q.1 = true

instance : DecidableRel pairLe := fun p q => by
  unfold pairLe
  infer_instance

/-- OptionMap::options: the entries in canonical order - present known names
in the fixed knownOrder enumeration first, then the custom entries sorted by
name.  The source sorts with Vec sort_by over the derived Ord; the embedding
uses insertionSort with the same ordering relation. -/
def OptionMap.options (m : OptionMap) : List (OptionName × OptionValue) :=
  (knownOrder.filterMap (fun k =>
    (m.find_value (.Known k)).map (fun v => (OptionName.Known k, v))))
  ++ List.insertionSort pairLe (m.entries.filter (fun p => !p.1.is_known))

/-- One line of SourceEntry::write_options, before its newline: the deb822
name, a colon and a space, then the encoded value. -/
def renderOptionLine (p : OptionName × OptionValue) : Str :=
  p.1.to_deb822 ++ ": ".toList ++ p.2.to_deb822

/-- The writeln payloads of SourceEntry::write_options, in order. -/
def stanzaLines (m : OptionMap) : List Str :=
  m.options.map renderOptionLine

/-- Join writeln payloads into file bytes: each one followed by a newline. -/
def joinLines (ls : List Str) : Str :=
  ls.foldr (fun l r => l ++ '\n' :: r) []

/-- SourceEntry::write_options: the bytes the serializer writes for a map. -/
def write_options (m : OptionMap) : Str := joinLines (stanzaLines m)

/-- Models str::trim: strip whitespace from both ends. -/
def trimStr (s : Str) : Str :=
  ((s.dropWhile isWS).reverse.dropWhile isWS).reverse

/-- Models str::split_once: split at the first occurrence of a character. -/
def splitOnce (c : Char) : Str → Option (Str × Str)
  | [] => none
  | a :: rest =>
      if a = c then some ([], rest)
      else (splitOnce c rest).map (fun p => (a :: p.1, p.2))

/-- Helper for splitOn: accumulate the current field in reverse. -/
def splitOnAux (c : Char) : Str → Str → List Str
  | [], acc => [acc.reverse]
  | a :: rest, acc =>
      if a = c then acc.reverse :: splitOnAux c rest []
      else splitOnAux c rest (a :: acc)

/-- Models str::split on a single character: the fields between the
separators (always at least one field). -/
def splitOn (c : Char) (s : Str) : List Str := splitOnAux c s []

/-- The value conversion inside parse_custom_option: a comma-containing
token is split on commas and collected, anything else is converted from the
single string. -/
def custom_option_value (value : Str) : OptionValue :=
  if value.contains ',' then OptionValue.from_vec (splitOn ',' value)
  else OptionValue.from_str value

/-- parse_custom_option from src/parse.rs. -/
def parse_custom_option (option : Str) (force_literal : Bool) :
    Except DebctlError (OptionName × OptionValue) :=
  match splitOnce '=' (trimStr option) with
  | none => .error (.MalformedOption option)
  | some (key, value) => do
      let option_name : OptionName ←
        if force_literal then pure (OptionName.Custom key)
        else (KnownOptionName.from_str key).map OptionName.Known
      pure (option_name, custom_option_value value)

/-- A map built by OptionMap::new followed by a sequence of OptionMap::insert
calls (the construction used by the struct-args and parser code paths). -/
def buildMap (l : List (OptionName × OptionValue)) : OptionMap :=
  l.foldl (fun m p => m.insert p.1 p.2) OptionMap.new

/-! ### Helper lemmas about the option map -/

theorem mem_hashInsert {es : List (OptionName × OptionValue)} {k v}
    {q : OptionName × OptionValue}
    (h : q ∈ hashInsert es k v) : q ∈ es ∨ q = (k, v) := by
  induction es with
  | nil => simpa [hashInsert] using h
  | cons p rest ih =>
      by_cases hk : p.1 = k
      · simp only [hashInsert, if_pos hk] at h
        rcases List.mem_cons.mp h with h | h
        · right; rw [h, hk]
        · left; exact List.mem_cons_of_mem _ h
      · simp only [hashInsert, if_neg hk] at h
        rcases List.mem_cons.mp h with h | h
        · left; exact h ▸ List.mem_cons_self _ _
        · rcases ih h with h | h
          · left; exact List.mem_cons_of_mem _ h
          · right; exact h

theorem mem_insert {m : OptionMap} {k v} {q : OptionName × OptionValue}
    (h : q ∈ (m.insert k v).entries) :
    q ∈ m.entries ∨ (q = (k, v) ∧ v.is_empty = false) := by
  by_cases he : v.is_empty
  · left; simpa [OptionMap.insert, he] using h
  · rw [OptionMap.insert, if_neg he] at h
    rcases mem_hashInsert h with h | h
    · left; exact h
    · right; exact ⟨h, by simpa using he⟩

theorem buildMap_values_nonempty (l : List (OptionName × OptionValue)) :
    ∀ q ∈ (buildMap l).entries, q.2.is_empty = false := by
  suffices h : ∀ (m : OptionMap), (∀ q ∈ m.entries, q.2.is_empty = false) →
      ∀ q ∈ (l.foldl (fun m p => m.insert p.1 p.2) m).entries,
        q.2.is_empty = false by
    exact h OptionMap.new (by simp [OptionMap.new])
  induction l with
  | nil => intro m hm; simpa using hm
  | cons p rest ih =>
      intro m hm
      simp only [List.foldl_cons]
      refine ih _ ?_
      intro q hq
      rcases mem_insert hq with h | ⟨h, hne⟩
      · exact hm q h
      · rw [h]; exact hne

theorem find_value_mem {m : OptionMap} {k : OptionName} {v : OptionValue}
    (h : m.find_value k = some v) : (k, v) ∈ m.entries := by
  unfold OptionMap.find_value at h
  rcases Option.map_eq_some'.mp h with ⟨q, hq, hv⟩
  have hmem := List.mem_of_find?_eq_some hq
  have hkey : q.1 = k := by
    have := List.find?_some hq
    simpa using this
  have : q = (k, v) := by
    cases q; simp_all
  exact this ▸ hmem

theorem mem_options {m : OptionMap} {p : OptionName × OptionValue}
    (h : p ∈ m.options) : p ∈ m.entries := by
  unfold OptionMap.options at h
  rcases List.mem_append.mp h with h | h
  · rcases List.mem_filterMap.mp h with ⟨k, _, hk⟩
    rcases Option.map_eq_some'.mp hk with ⟨v, hv, hp⟩
    exact hp ▸ find_value_mem hv
  · have := (List.perm_insertionSort pairLe _).mem_iff.mp h
    exact List.mem_of_mem_filter this

theorem splitOnAux_ne_nil (c : Char) (s acc : Str) : splitOnAux c s acc ≠ [] := by
  induction s generalizing acc with
  | nil => simp [splitOnAux]
  | cons a rest ih =>
      by_cases h : a = c
      · simp [splitOnAux, h]
      · simp only [splitOnAux, if_neg h]
        exact ih _

theorem splitOnAux_length_of_mem (c : Char) {s : Str} (h : c ∈ s) (acc : Str) :
    2 ≤ (splitOnAux c s acc).length := by
  induction s generalizing acc with
  | nil => simp at h
  | cons a rest ih =>
      by_cases hc : a = c
      · simp only [splitOnAux, if_pos hc, List.length_cons]
        have hpos := List.length_pos.mpr (splitOnAux_ne_nil c rest [])
        omega
      · simp only [splitOnAux, if_neg hc]
        rcases List.mem_cons.mp h with h | h
        · exact absurd h.symm hc
        · exact ih h _

theorem splitOn_length_ge_two {s : Str} (h : s.contains ',' = true) :
    2 ≤ (splitOn ',' s).length := by
  have hm : ',' ∈ s := by simpa using h
  exact splitOnAux_length_of_mem ',' hm []

theorem falsey_not_truthy {s : Str} (h : is_falsey s = true) :
    is_truthy s = false := by
  have h2 : lowerStr s = "no".toList ∨ lowerStr s = "false".toList := by
    simpa [is_falsey] using h
  rcases h2 with hs | hs <;> simp [is_truthy, hs]

/-! ### C3: empty-value suppression -/

/-- C3, counterexample: the claim quantifies over every way of putting
entries into the map, but the FromIterator impl collects pairs into the hash
map without the empty-value check, so a map collected from an iterator can
hold an empty value, and options() returns it. -/
theorem c3_counterexample :
    (OptionMap.from_iter [(OptionName.Custom "flavor".toList, OptionValue.String [])]).options
      = [(OptionName.Custom "flavor".toList, OptionValue.String [])]
    ∧ OptionValue.is_empty (OptionValue.String []) = true := by
  constructor <;> decide

/-- C3, amended: inserting an empty value through OptionMap::insert is a
no-op, and a map built from OptionMap::new by insert calls never yields an
entry with an empty value from options(); the FromIterator path, however,
performs no such filtering (see the counterexample). -/
theorem c3_empty_value_suppression :
    (∀ (m : OptionMap) (k : OptionName) (v : OptionValue),
      v.is_empty = true → m.insert k v = m)
    ∧ (∀ (l : List (OptionName × OptionValue)) (p : OptionName × OptionValue),
        p ∈ (buildMap l).options → p.2.is_empty = false) := by
  constructor
  · intro m k v h
    simp [OptionMap.insert, h]
  · intro l p hp
    exact buildMap_values_nonempty l p (mem_options hp)

/-- C3, witness: the amended theorem applied at concrete inputs. -/
theorem c3_witness :
    OptionMap.new.insert (OptionName.Custom "x".toList) (OptionValue.String [' '])
      = OptionMap.new
    ∧ OptionValue.is_empty (OptionValue.Bool true) = false :=
  ⟨c3_empty_value_suppression.1 OptionMap.new _ _ (by decide),
   c3_empty_value_suppression.2 [(OptionName.Known .Enabled, OptionValue.Bool true)]
     (OptionName.Known .Enabled, OptionValue.Bool true) (by decide)⟩

/-! ### C4: the reserved Signed-By name -/

/-- C4, counterexample: the claim says inserting a second value under
Signed-By always fails and never silently overwrites, but the plain
OptionMap::insert method performs no reserved-name check: on a map already
holding Signed-By it silently replaces the value and reports no error. -/
theorem c4_counterexample :
    (OptionMap.mk [(OptionName.Known .SignedBy,
        OptionValue.String "/path/to/key.gpg".toList)]).contains
      (OptionName.Known .SignedBy) = true
    ∧ (OptionMap.mk [(OptionName.Known .SignedBy,
        OptionValue.String "/path/to/key.gpg".toList)]).insert
        (OptionName.Known .SignedBy) (OptionValue.String "/other".toList)
      = OptionMap.mk [(OptionName.Known .SignedBy,
          OptionValue.String "/other".toList)] := by
  constructor <;> decide

/-- C4, amended: OptionMap::insert_key on a map that already holds a value
under the reserved Signed-By name fails with ConflictingKeyLocations and
does not modify the map; the plain insert method performs no such check and
silently overwrites (see the counterexample). -/
theorem c4_insert_key_conflict (m : OptionMap) (key : SigningKey)
    (h : m.contains (OptionName.Known .SignedBy) = true) :
    m.insert_key key = .error .ConflictingKeyLocations := by
  simp [OptionMap.insert_key, h]

/-- C4, witness: insert_key fails on a concrete map holding Signed-By. -/
theorem c4_witness :
    (OptionMap.mk [(OptionName.Known .SignedBy,
        OptionValue.String "/path/to/key.gpg".toList)]).insert_key
        (SigningKey.Inline (OptionValue.String "key".toList))
      = .error .ConflictingKeyLocations :=
  c4_insert_key_conflict _ _ (by decide)

/-! ### C7: multiline encoding -/

/-- C7, counterexample: the encoding of the Multiline value itself is as
claimed, but the stanza line is written with writeln "{}: {}", so the first
line is the name, a colon and a trailing space, not the name and colon
immediately followed by the block. -/
theorem c7_counterexample :
    renderOptionLine (OptionName.Known .SignedBy,
        OptionValue.Multiline ["value1".toList, [], "value3".toList])
      = "Signed-By: \n value1\n .\n value3\n".toList
    ∧ renderOptionLine (OptionName.Known .SignedBy,
        OptionValue.Multiline ["value1".toList, [], "value3".toList])
      ≠ "Signed-By:\n value1\n .\n value3\n".toList := by
  constructor <;> decide

/-- C7, amended: serializing Multiline(["value1", "", "value3"]) yields
exactly "\n value1\n .\n value3\n", and the stanza entry for a Multiline
value is written as the name, a colon and one separator space, followed
immediately by the multi-line block, with the terminating writeln newline
leaving a blank line after the block. -/
theorem c7_multiline_encoding :
    OptionValue.to_deb822 (OptionValue.Multiline ["value1".toList, [], "value3".toList])
      = "\n value1\n .\n value3\n".toList
    ∧ write_options (OptionMap.mk [(OptionName.Known .SignedBy,
        OptionValue.Multiline ["value1".toList, [], "value3".toList])])
      = "Signed-By: \n value1\n .\n value3\n\n".toList := by
  constructor <;> decide

/-! ### C8: custom option value parsing -/

/-- C8, counterexample: a comma-free token whose lowercase form is a boolean
literal is not stored as a literal Text value: parsing enabled=yes yields
Bool(true), not String("yes"). -/
theorem c8_counterexample :
    parse_custom_option "enabled=yes".toList false
      = .ok (OptionName.Known .Enabled, OptionValue.Bool true)
    ∧ OptionValue.Bool true ≠ OptionValue.String "yes".toList := by
  exact ⟨by rfl, by decide⟩

/-- C8, amended: when parsing option values, a comma-free token is stored as
a Text value with its literal spelling unless its lowercase form is
yes/true/no/false, in which case it becomes the corresponding Bool; a
comma-containing token is split on commas and stored as a List of the
resulting fields. -/
theorem c8_value_parsing (value : Str) :
    (value.contains ',' = false →
      custom_option_value value =
        (if is_truthy value then OptionValue.Bool true
         else if is_falsey value then OptionValue.Bool false
         else OptionValue.String value))
    ∧ (value.contains ',' = true →
        custom_option_value value = OptionValue.List (splitOn ',' value)) := by
  constructor
  · intro h
    unfold custom_option_value
    rw [if_neg (by simpa using h)]
    rfl
  · intro h
    have hlen : 2 ≤ (splitOn ',' value).length := splitOn_length_ge_two h
    unfold custom_option_value
    rw [if_pos (by simpa using h)]
    rcases hsp : splitOn ',' value with - | ⟨a, t⟩
    · rw [hsp] at hlen; simp at hlen
    · rcases t with - | ⟨b, t2⟩
      · rw [hsp] at hlen; simp at hlen
      · rfl

/-- C8, witness: the amended theorem applied at concrete values. -/
theorem c8_witness :
    custom_option_value "literal".toList = OptionValue.String "literal".toList
    ∧ custom_option_value "en,de".toList
      = OptionValue.List ["en".toList, "de".toList] := by
  constructor
  · have := (c8_value_parsing "literal".toList).1 (by decide)
    simpa using this
  · have := (c8_value_parsing "en,de".toList).2 (by decide)
    rw [this]; decide

/-! ### C10: truthy and falsey normalization -/

/-- C10: a raw string stored as an option value, directly or as the sole
element of a one-element vector, becomes Bool(true) when its lowercase form
is yes or true and Bool(false) when it is no or false, and such values
serialize as the literals yes and no. -/
theorem c10_bool_normalization (s : Str) :
    (is_truthy s = true →
      OptionValue.from_str s = OptionValue.Bool true
      ∧ (OptionValue.from_str s).to_deb822 = "yes".toList)
    ∧ (is_falsey s = true →
      OptionValue.from_str s = OptionValue.Bool false
      ∧ (OptionValue.from_str s).to_deb822 = "no".toList)
    ∧ OptionValue.from_vec [s] = OptionValue.from_str s := by
  refine ⟨?_, ?_, rfl⟩
  · intro h
    unfold OptionValue.from_str
    rw [if_pos (by simp [h])]
    exact ⟨rfl, rfl⟩
  · intro h
    have hnt : is_truthy s = false := falsey_not_truthy h
    unfold OptionValue.from_str
    rw [if_neg (by simp [hnt]), if_pos (by simp [h])]
    exact ⟨rfl, rfl⟩

/-- C10, witness: the theorem applied at concrete spellings. -/
theorem c10_witness :
    OptionValue.from_str "TRUE".toList = OptionValue.Bool true
    ∧ (OptionValue.from_str "No".toList).to_deb822 = "no".toList :=
  ⟨((c10_bool_normalization "TRUE".toList).1 (by decide)).1,
   (((c10_bool_normalization "No".toList).2.1) (by decide)).2⟩

/-! ### The one-line entry grammar and parser -/

/-- Split a string on whitespace, dropping empty fields (the token
separation the grammar's WS rule induces). -/
def wsSplitAux : Str → Str → List Str
  | [], acc => if acc.isEmpty then [] else [acc.reverse]
  | c :: rest, acc =>
      if isWS c then
        if acc.isEmpty then wsSplitAux rest []
        else acc.reverse :: wsSplitAux rest []
      else wsSplitAux rest (c :: acc)

/-- Whitespace-separated tokens of a string. -/
def wsSplit (s : Str) : List Str := wsSplitAux s []

/-- Modelled from the spec: the pest grammar file line.pest is not among the
provided sources.  Per the spec the grammar is
type WS? ("[" option_list "]")? WS uri WS suite (WS component)*, the type
must be one of the two literal source-type tokens (deb, deb-src),
option_list is a sequence of name=value1,value2,... tokens separated by
whitespace and terminated by "]", and the positional parameters uri, suite
and component+ are mandatory (too few trailing tokens is a parse failure;
the repository's own tests expect a three-token line with no component to
fail).  The function returns the matched raw pieces: the type token, the
raw option tokens and the positional parameters; any failure to match is
the malformed-entry parse failure. -/
def matchLineGrammar (s : Str) :
    Except DebctlError (Str × List Str × List Str) :=
  let afterLeading := s.dropWhile isWS
  let typeTok := afterLeading.takeWhile (fun c => !isWS c)
  let rest := (afterLeading.dropWhile (fun c => !isWS c)).dropWhile isWS
  if typeTok == "deb".toList || typeTok == "deb-src".toList then
    match rest with
    | '[' :: afterBracket =>
        match splitOnce ']' afterBracket with
        | none => .error .MalformedOneLineEntry
        | some (inside, afterOpts) =>
            let params := wsSplit afterOpts
            if 3 ≤ params.length then .ok (typeTok, wsSplit inside, params)
            else .error .MalformedOneLineEntry
    | _ =>
        let params := wsSplit rest
        if 3 ≤ params.length then .ok (typeTok, [], params)
        else .error .MalformedOneLineEntry
  else .error .MalformedOneLineEntry

/-- parse_option_name from src/parse.rs: resolve a known option name inside
a one-line entry, demoting an unknown name to the malformed-entry error. -/
def parse_option_name (s : Str) : Except DebctlError KnownOptionName :=
  match KnownOptionName.from_str s with
  | .ok k => .ok k
  | .error _ => .error .MalformedOneLineEntry

/-- parse_line_entry from src/parse.rs: build the option map from the
matched grammar pieces - Types from the type token, each bracketed option
through the alias table with its comma-separated values, then URIs, Suites
and Components from the positional parameters, and finally Enabled is
always set to true. -/
def parse_line_entry (entry : Str) : Except DebctlError OptionMap := do
  let (typeTok, optionToks, params) ← matchLineGrammar entry
  let m0 := OptionMap.new.insert (.Known .Types) (OptionValue.from_str typeTok)
  let m1 ← optionToks.foldlM (fun m tok => do
      match splitOnce '=' tok with
      | none => Except.error DebctlError.MalformedOneLineEntry
      | some (name, valuePart) => do
          let known ← parse_option_name name
          pure (m.insert (.Known known)
            (OptionValue.from_vec (splitOn ',' valuePart)))) m0
  match params with
  | uri :: suite :: components =>
      let m2 := m1.insert (.Known .Uris) (OptionValue.from_str uri)
      let m3 := m2.insert (.Known .Suites) (OptionValue.from_str suite)
      let m4 := m3.insert (.Known .Components) (OptionValue.from_vec components)
      pure (m4.insert (.Known .Enabled) (OptionValue.Bool true))
  | _ => .error .MalformedOneLineEntry

/-! ### C2: parsing the example one-line directive -/

/-- C2, counterexample: the claim says the bare line parser never sets the
Enabled option, but parse_line_entry unconditionally inserts Enabled=true
(parse.rs lines 106-108), so the parsed map for the example line contains
Enabled. -/
theorem c2_counterexample :
    (parse_line_entry
        "deb [arch=amd64 lang=en,de] https://example.com suite component1 component2".toList).map
      (fun m => m.contains (OptionName.Known .Enabled))
      = .ok true := by
  rfl

/-- C2, amended: parsing the example directive with the bare line parser
yields exactly Types=deb, URIs=https://example.com, Suites=suite,
Components=[component1, component2], Architectures=amd64,
Languages=[en, de] and, in addition, Enabled=Bool(true), which the bare
parser always sets; nothing else is in the map. -/
theorem c2_line_entry_parse :
    (parse_line_entry
        "deb [arch=amd64 lang=en,de] https://example.com suite component1 component2".toList).map
      OptionMap.options
      = .ok [(OptionName.Known .Enabled, OptionValue.Bool true),
             (OptionName.Known .Types, OptionValue.String "deb".toList),
             (OptionName.Known .Uris, OptionValue.String "https://example.com".toList),
             (OptionName.Known .Suites, OptionValue.String "suite".toList),
             (OptionName.Known .Components,
               OptionValue.List ["component1".toList, "component2".toList]),
             (OptionName.Known .Architectures, OptionValue.String "amd64".toList),
             (OptionName.Known .Languages,
               OptionValue.List ["en".toList, "de".toList])] := by
  rfl

/-! ### Rust BufRead::lines, for the append separator logic -/

/-- Strip one trailing carriage return, as BufRead::lines does on each
newline-terminated line. -/
def dropCR (l : Str) : Str :=
  if l.getLast? = some '\r' then l.dropLast else l

/-- Helper for rustLines: the reversed current line is accumulated. -/
def rustLinesAux : Str → Str → List Str
  | [], acc => if acc.isEmpty then [] else [acc.reverse]
  | c :: rest, acc =>
      if c = '\n' then dropCR acc.reverse :: rustLinesAux rest []
      else rustLinesAux rest (c :: acc)

/-- Models BufRead::lines over the file contents: the lines without their
terminators; a trailing newline produces no extra empty line. -/
def rustLines (s : Str) : List Str := rustLinesAux s []

/-! ### The install state machine (src/entry.rs) -/

/-- OverwriteAction from src/entry.rs. -/
inductive OverwriteAction where
  | Overwrite
  | Append
  | Fail
deriving DecidableEq, Repr

/-- InstallPlanAction from src/entry.rs. -/
inductive InstallPlanAction where
  | Create
  | Overwrite
  | Append
deriving DecidableEq, Repr

/-- Paths of the modelled filesystem. -/
abbrev Path := Str

/-- The modelled filesystem: the contents of each existing file. -/
abbrev Fs := Path → Option Str

/-- Point update of the modelled filesystem. -/
def fsUpdate (fs : Fs) (p : Path) (c : Str) : Fs :=
  fun q => if q = p then some c else fs q

/-- InstallPlan::new from src/entry.rs: the planned action for a policy and
the existence of the target path. -/
def installPlanNew (path : Path) (action : OverwriteAction)
    (pathExists : Bool) : Except DebctlError InstallPlanAction :=
  match action, pathExists with
  | .Overwrite, _ => .ok .Overwrite
  | .Append, _ => .ok .Append
  | .Fail, false => .ok .Create
  | .Fail, true => .error (.NewSourceFileAlreadyExists path)

/-- The separator decision of SourceEntry::install_to under Append: read
the last line of the existing contents; when it is missing or blank nothing
is inserted, otherwise one newline is written before the stanza. -/
def appendSep (content : Str) : Str :=
  match (rustLines content).getLast? with
  | none => []
  | some line => if isBlank line then [] else ['\n']

/-- SourceEntry::install_to from src/entry.rs, as a function from the file
contents at open time to the contents afterwards.  Only the Append action
reads the existing lines and may insert a separating newline. -/
def install_to (content : Str) (m : OptionMap) (action : OverwriteAction) :
    Str :=
  if action = .Append then content ++ appendSep content ++ write_options m
  else content ++ write_options m

/-- SourceEntry::install from src/entry.rs: open_source_file under the
chosen policy followed by install_to, as a state transformation on the
modelled filesystem.  perm marks paths whose access is denied; the returned
pair is the command result and the filesystem afterwards (unchanged when
the open fails).  Overwrite opens with truncation, Append without, and
Fail opens with create_new, surfacing NewSourceFileAlreadyExists on an
existing path and PermissionDenied on a denied one. -/
def install (fs : Fs) (perm : Path → Bool) (path : Path) (m : OptionMap)
    (action : OverwriteAction) : Except DebctlError Unit × Fs :=
  if perm path then (.error .PermissionDenied, fs)
  else
    match action with
    | .Overwrite => (.ok (), fsUpdate fs path (install_to [] m .Overwrite))
    | .Append =>
        (.ok (), fsUpdate fs path (install_to ((fs path).getD []) m .Append))
    | .Fail =>
        match fs path with
        | some _ => (.error (.NewSourceFileAlreadyExists path), fs)
        | none => (.ok (), fsUpdate fs path (install_to [] m .Fail))

/-! ### C1: the overwrite-policy matrix -/

/-- C1, counterexample: the claim says a missing target yields the Create
state under every policy, but InstallPlan::new plans Overwrite whenever the
policy is Overwrite, regardless of whether the file exists. -/
theorem c1_counterexample :
    installPlanNew "myrepo.sources".toList .Overwrite false
      = .ok .Overwrite
    ∧ (Except.ok InstallPlanAction.Overwrite :
        Except DebctlError InstallPlanAction) ≠ .ok .Create := by
  exact ⟨rfl, by simp⟩

/-- C1, amended: the plan depends on existence only under the Fail policy -
Overwrite plans Overwrite and Append plans Append whether or not the file
exists, Fail on a missing file plans Create, and Fail on an existing file
is rejected with the NewSourceFileAlreadyExists error carrying the path;
executing an install with Fail on an existing file fails with that same
error and leaves the filesystem, in particular the existing file,
byte-for-byte unchanged, while Fail on a missing path creates the file with
exactly the serialized stanza. -/
theorem c1_install_matrix (path : Path) (fs : Fs) (perm : Path → Bool)
    (m : OptionMap) (c : Str) (hperm : perm path = false)
    (hex : fs path = some c) :
    (∀ b, installPlanNew path .Overwrite b = .ok .Overwrite)
    ∧ (∀ b, installPlanNew path .Append b = .ok .Append)
    ∧ installPlanNew path .Fail false = .ok .Create
    ∧ installPlanNew path .Fail true
        = .error (.NewSourceFileAlreadyExists path)
    ∧ install fs perm path m .Fail
        = (.error (.NewSourceFileAlreadyExists path), fs)
    ∧ (install fs perm path m .Fail).2 path = some c
    ∧ (∀ fs2 : Fs, fs2 path = none →
        install fs2 perm path m .Fail
          = (.ok (), fsUpdate fs2 path (write_options m))) := by
  refine ⟨fun b => rfl, fun b => rfl, rfl, rfl, ?_, ?_, ?_⟩
  · simp [install, hperm, hex]
  · simp [install, hperm, hex]
  · intro fs2 h2
    simp [install, hperm, h2, install_to, write_options]

/-- C1, witness: the amended theorem applied to a concrete filesystem with
an existing target file. -/
theorem c1_witness :
    install (fun q => if q = "myrepo.sources".toList then some "old".toList else none)
        (fun _ => false) "myrepo.sources".toList OptionMap.new .Fail
      = (.error (.NewSourceFileAlreadyExists "myrepo.sources".toList),
         fun q => if q = "myrepo.sources".toList then some "old".toList else none) :=
  (c1_install_matrix "myrepo.sources".toList
    (fun q => if q = "myrepo.sources".toList then some "old".toList else none)
    (fun _ => false) OptionMap.new "old".toList rfl (by simp)).2.2.2.2.1

/-! ### C9: converter failure kinds (src/convert.rs) -/

/-- File open for reading in the modelled filesystem: denied paths fail
with PermissionDenied, missing files with NotFound. -/
def openRead (fs : Fs) (perm : Path → Bool) (p : Path) :
    Except IoErrorKind Str :=
  if perm p then .error .PermissionDenied
  else
    match fs p with
    | none => .error .NotFound
    | some c => .ok c

/-- OpenOptions create_new in the modelled filesystem: denied paths fail
with PermissionDenied, existing files with AlreadyExists. -/
def createNew (fs : Fs) (perm : Path → Bool) (p : Path) :
    Except IoErrorKind Unit :=
  if perm p then .error .PermissionDenied
  else
    match fs p with
    | some _ => .error .AlreadyExists
    | none => .ok ()

/-- The input-file open inside EntryConverter::from_args: a NotFound io
error becomes ConvertInFileNotFound; any other io error, including a
permission failure, is propagated behind a generic wrap_err. -/
def from_args_open_in (fs : Fs) (perm : Path → Bool) (p : Path) :
    Except DebctlError Str :=
  match openRead fs perm p with
  | .ok c => .ok c
  | .error .NotFound => .error (.ConvertInFileNotFound p)
  | .error k => .error (.Generic k)

/-- EntryConverter::open_backup_file: create_new on the backup path, with
PermissionDenied and ConvertBackupAlreadyExists mapped to their specific
kinds and anything else propagated generically. -/
def open_backup_file (fs : Fs) (perm : Path → Bool) (p : Path) :
    Except DebctlError Unit :=
  match createNew fs perm p with
  | .ok () => .ok ()
  | .error .PermissionDenied => .error .PermissionDenied
  | .error .AlreadyExists => .error (.ConvertBackupAlreadyExists p)
  | .error k => .error (.Generic k)

/-- EntryConverter::open_dest_file: create_new on the destination path,
with PermissionDenied and ConvertOutFileAlreadyExists mapped to their
specific kinds and anything else propagated generically. -/
def open_dest_file (fs : Fs) (perm : Path → Bool) (p : Path) :
    Except DebctlError Unit :=
  match createNew fs perm p with
  | .ok () => .ok ()
  | .error .PermissionDenied => .error .PermissionDenied
  | .error .AlreadyExists => .error (.ConvertOutFileAlreadyExists p)
  | .error k => .error (.Generic k)

/-- EntryConverter::remove_original: deleting the original file maps a
permission failure to PermissionDenied and any other io error to a generic
error. -/
def remove_original (fs : Fs) (perm : Path → Bool) (p : Path) :
    Except DebctlError Unit :=
  if perm p then .error .PermissionDenied
  else
    match fs p with
    | none => .error (.Generic .NotFound)
    | some _ => .ok ()

/-- C9, counterexample: the claim says every I/O permission failure in any
phase fails with the permission-denied kind, but a permission failure while
opening the conversion input file in from_args is propagated as a generic
wrapped error, not as the PermissionDenied kind. -/
theorem c9_counterexample :
    from_args_open_in
        (fun q => if q = "myrepo.list".toList then some [] else none)
        (fun q => q == "myrepo.list".toList) "myrepo.list".toList
      = .error (.Generic .PermissionDenied)
    ∧ DebctlError.Generic .PermissionDenied ≠ DebctlError.PermissionDenied := by
  exact ⟨rfl, by simp⟩

/-- C9, amended: a missing input file fails with ConvertInFileNotFound; an
existing destination fails with ConvertOutFileAlreadyExists; an existing
backup path fails with ConvertBackupAlreadyExists and is never overwritten;
permission failures in the backup-open, destination-open and
original-removal phases fail with the PermissionDenied kind, but a
permission failure opening the input file in from_args surfaces as a
generic wrapped error rather than the PermissionDenied kind. -/
theorem c9_converter_errors (fs : Fs) (perm : Path → Bool) (p : Path) :
    (perm p = false → fs p = none →
      from_args_open_in fs perm p = .error (.ConvertInFileNotFound p))
    ∧ (perm p = false → ∀ c, fs p = some c →
        open_dest_file fs perm p = .error (.ConvertOutFileAlreadyExists p))
    ∧ (perm p = false → ∀ c, fs p = some c →
        open_backup_file fs perm p = .error (.ConvertBackupAlreadyExists p))
    ∧ (perm p = true → open_backup_file fs perm p = .error .PermissionDenied)
    ∧ (perm p = true → open_dest_file fs perm p = .error .PermissionDenied)
    ∧ (perm p = true → remove_original fs perm p = .error .PermissionDenied)
    ∧ (perm p = true →
        from_args_open_in fs perm p = .error (.Generic .PermissionDenied)) := by
  refine ⟨?_, ?_, ?_, ?_, ?_, ?_, ?_⟩
  · intro hp hf; simp [from_args_open_in, openRead, hp, hf]
  · intro hp c hf; simp [open_dest_file, createNew, hp, hf]
  · intro hp c hf; simp [open_backup_file, createNew, hp, hf]
  · intro hp; simp [open_backup_file, createNew, hp]
  · intro hp; simp [open_dest_file, createNew, hp]
  · intro hp; simp [remove_original, hp]
  · intro hp; simp [from_args_open_in, openRead, hp]

/-- C9, witness: the amended theorem applied to concrete filesystems. -/
theorem c9_witness :
    from_args_open_in (fun _ => none) (fun _ => false) "myrepo.list".toList
      = .error (.ConvertInFileNotFound "myrepo.list".toList)
    ∧ open_backup_file (fun _ => some []) (fun _ => false) "b.bak".toList
      = .error (.ConvertBackupAlreadyExists "b.bak".toList)
    ∧ open_dest_file (fun _ => none) (fun _ => true) "out.sources".toList
      = .error .PermissionDenied :=
  ⟨(c9_converter_errors (fun _ => none) (fun _ => false)
      "myrepo.list".toList).1 rfl rfl,
   (c9_converter_errors (fun _ => some []) (fun _ => false)
      "b.bak".toList).2.2.1 rfl [] rfl,
   (c9_converter_errors (fun _ => none) (fun _ => true)
      "out.sources".toList).2.2.2.2.1 rfl⟩

/-! ### Order lemmas for the canonical serialization order (C6) -/

theorem lexLeB_cons (a b : Char) (as bs : List Char) :
    lexLeB (a :: as) (b :: bs)
      = if a < b then true else if b < a then false else lexLeB as bs := rfl

theorem lexLeB_antisymm : ∀ {a b : Str},
    lexLeB a b = true → lexLeB b a = true → a = b
  | [], [], _, _ => rfl
  | [], _ :: _, _, h2 => by simp [lexLeB] at h2
  | _ :: _, [], h1, _ => by simp [lexLeB] at h1
  | a :: as, b :: bs, h1, h2 => by
      rw [lexLeB_cons] at h1
      rw [lexLeB_cons] at h2
      by_cases hab : a < b
      · rw [if_neg (lt_asymm hab), if_pos hab] at h2
        simp at h2
      · by_cases hba : b < a
        · rw [if_neg hab, if_pos hba] at h1
          simp at h1
        · have heq : a = b := le_antisymm (not_lt.mp hba) (not_lt.mp hab)
          subst heq
          simp only [if_neg hab] at h1 h2
          rw [lexLeB_antisymm h1 h2]

theorem lexLeB_total : ∀ (a b : Str), lexLeB a b = true ∨ lexLeB b a = true
  | [], _ => Or.inl rfl
  | _ :: _, [] => Or.inr rfl
  | a :: as, b :: bs => by
      rw [lexLeB_cons, lexLeB_cons]
      by_cases hab : a < b
      · left; rw [if_pos hab]
      · by_cases hba : b < a
        · right; rw [if_pos hba]
        · have heq : a = b := le_antisymm (not_lt.mp hba) (not_lt.mp hab)
          subst heq
          simp only [if_neg hab]
          exact lexLeB_total as bs

theorem lexLeB_trans : ∀ {a b c : Str},
    lexLeB a b = true → lexLeB b c = true → lexLeB a c = true
  | [], _, _, _, _ => rfl
  | _ :: _, [], _, h1, _ => by simp [lexLeB] at h1
  | _ :: _, _ :: _, [], _, h2 => by simp [lexLeB] at h2
  | a :: as, b :: bs, c :: cs, h1, h2 => by
      rw [lexLeB_cons] at h1
      rw [lexLeB_cons] at h2
      rw [lexLeB_cons]
      by_cases hab : a < b
      · by_cases hbc : b < c
        · rw [if_pos (lt_trans hab hbc)]
        · by_cases hcb : c < b
          · rw [if_neg hbc, if_pos hcb] at h2
            simp at h2
          · have heq : b = c := le_antisymm (not_lt.mp hcb) (not_lt.mp hbc)
            subst heq
            rw [if_pos hab]
      · by_cases hba : b < a
        · rw [if_neg hab, if_pos hba] at h1
          simp at h1
        · have heq : a = b := le_antisymm (not_lt.mp hba) (not_lt.mp hab)
          subst heq
          simp only [if_neg hab] at h1
          by_cases hac : a < c
          · rw [if_pos hac]
          · by_cases hca : c < a
            · rw [if_neg hac, if_pos hca] at h2
              simp at h2
            · have heq2 : a = c := le_antisymm (not_lt.mp hca) (not_lt.mp hac)
              subst heq2
              simp only [if_neg hac] at h2 ⊢
              exact lexLeB_trans h1 h2

theorem knownIdx_inj : ∀ (a b : KnownOptionName),
    knownIdx a = knownIdx b → a = b := by
  decide

theorem nameLeB_antisymm : ∀ {a b : OptionName},
    nameLeB a b = true → nameLeB b a = true → a = b
  | .Known a, .Known b, h1, h2 => by
      rw [nameLeB] at h1 h2
      exact congrArg OptionName.Known
        (knownIdx_inj a b
          (Nat.le_antisymm (by simpa using h1) (by simpa using h2)))
  | .Known _, .Custom _, _, h2 => by simp [nameLeB] at h2
  | .Custom _, .Known _, h1, _ => by simp [nameLeB] at h1
  | .Custom a, .Custom b, h1, h2 => by
      rw [nameLeB] at h1 h2
      rw [lexLeB_antisymm h1 h2]

theorem nameLeB_total : ∀ (a b : OptionName),
    nameLeB a b = true ∨ nameLeB b a = true
  | .Known a, .Known b => by
      rw [nameLeB, nameLeB]
      simpa using Nat.le_total (knownIdx a) (knownIdx b)
  | .Known _, .Custom _ => Or.inl rfl
  | .Custom _, .Known _ => Or.inr rfl
  | .Custom a, .Custom b => lexLeB_total a b

theorem nameLeB_trans : ∀ {a b c : OptionName},
    nameLeB a b = true → nameLeB b c = true → nameLeB a c = true
  | .Known _, .Known _, .Known _, h1, h2 => by
      rw [nameLeB] at h1 h2 ⊢
      simp only [decide_eq_true_eq] at h1 h2 ⊢
      omega
  | .Known _, _, .Custom _, _, _ => rfl
  | .Known _, .Custom _, .Known _, _, h2 => by simp [nameLeB] at h2
  | .Custom _, .Known _, _, h1, _ => by simp [nameLeB] at h1
  | .Custom _, .Custom _, .Known _, _, h2 => by simp [nameLeB] at h2
  | .Custom _, .Custom _, .Custom _, h1, h2 => lexLeB_trans h1 h2

instance : IsTotal (OptionName × OptionValue) pairLe :=
  ⟨fun p q => nameLeB_total p.1 q.1⟩

instance : IsTrans (OptionName × OptionValue) pairLe :=
  ⟨fun _ _ _ h1 h2 => nameLeB_trans h1 h2⟩

/-- find? for a key is invariant under permutation of an association list
with duplicate-free keys. -/
theorem find?_perm_nodup {es1 es2 : List (OptionName × OptionValue)}
    (hp : es1.Perm es2) (hnd : (es1.map Prod.fst).Nodup) (k : OptionName) :
    es1.find? (fun p => p.1 == k) = es2.find? (fun p => p.1 == k) := by
  induction hp with
  | nil => rfl
  | cons x h ih =>
      simp only [List.find?_cons]
      cases hx : (x.1 == k)
      · exact ih (by simpa using hnd.of_cons)
      · rfl
  | swap x y l =>
      simp only [List.find?_cons]
      cases hy : (y.1 == k) <;> cases hx : (x.1 == k)
      · rfl
      · rfl
      · rfl
      · have hyk : y.1 = k := by simpa using hy
        have hxk : x.1 = k := by simpa using hx
        have : y.1 ≠ x.1 := by
          simp only [List.map_cons, List.nodup_cons, List.mem_cons] at hnd
          exact fun hcontra => hnd.1 (Or.inl hcontra)
        exact absurd (hyk.trans hxk.symm) this
  | trans h1 h2 ih1 ih2 =>
      exact (ih1 hnd).trans (ih2 ((h1.map Prod.fst).nodup_iff.mp hnd))

/-- Two sorted association lists with duplicate-free keys that are
permutations of each other are equal. -/
theorem sorted_perm_eq : ∀ {l1 l2 : List (OptionName × OptionValue)},
    l1.Perm l2 → l1.Sorted pairLe → l2.Sorted pairLe →
    (l1.map Prod.fst).Nodup → l1 = l2
  | [], l2, hp, _, _, _ => hp.nil_eq
  | x :: t1, [], hp, _, _, _ => by
      exact absurd hp.symm (by simp)
  | x :: t1, y :: t2, hp, hs1, hs2, hnd => by
      have hnd2 : ((y :: t2).map Prod.fst).Nodup :=
        ((hp.map Prod.fst).nodup_iff).mp hnd
      have hxy : x = y := by
        rcases List.mem_cons.mp (hp.subset (List.mem_cons_self x t1)) with h | hx2
        · exact h
        · rcases List.mem_cons.mp (hp.symm.subset (List.mem_cons_self y t2)) with h | hy1
          · exact h.symm
          · have h1 : pairLe x y := List.rel_of_sorted_cons hs1 y hy1
            have h2 : pairLe y x := List.rel_of_sorted_cons hs2 x hx2
            have hkey : x.1 = y.1 := nameLeB_antisymm h1 h2
            exfalso
            simp only [List.map_cons, List.nodup_cons] at hnd2
            exact hnd2.1 (hkey ▸ List.mem_map_of_mem Prod.fst hx2)
      subst hxy
      have ht : t1 = t2 :=
        sorted_perm_eq hp.cons_inv hs1.of_cons hs2.of_cons
          (by simpa using hnd.of_cons)
      rw [ht]

/-- Inserting a fresh key into the hash map appends the binding. -/
theorem hashInsert_fresh {es : List (OptionName × OptionValue)}
    {k : OptionName} (v : OptionValue) (h : k ∉ es.map Prod.fst) :
    hashInsert es k v = es ++ [(k, v)] := by
  induction es with
  | nil => rfl
  | cons p rest ih =>
      simp only [List.map_cons, List.mem_cons] at h
      push_neg at h
      rw [hashInsert, if_neg (fun hc => h.1 hc.symm), ih h.2]
      rfl

/-- Building a map by insert calls from a list with duplicate-free keys
keeps exactly its non-empty-valued pairs, in list order. -/
theorem buildMap_eq_filter {l : List (OptionName × OptionValue)}
    (h : (l.map Prod.fst).Nodup) :
    buildMap l = OptionMap.mk (l.filter (fun p => !p.2.is_empty)) := by
  suffices hgen : ∀ (es : List (OptionName × OptionValue)),
      (∀ k ∈ l.map Prod.fst, k ∉ es.map Prod.fst) →
      (l.map Prod.fst).Nodup →
      l.foldl (fun m p => m.insert p.1 p.2) (OptionMap.mk es)
        = OptionMap.mk (es ++ l.filter (fun p => !p.2.is_empty)) by
    simpa using hgen [] (by simp) h
  clear h
  induction l with
  | nil => intro es _ _; simp
  | cons p t ih =>
      intro es hdisj hnd
      simp only [List.foldl_cons]
      by_cases he : p.2.is_empty
      · rw [show (OptionMap.mk es).insert p.1 p.2 = OptionMap.mk es by
            simp [OptionMap.insert, he]]
        rw [ih es (fun k hk => hdisj k (by simp [hk])) (by simpa using hnd.of_cons)]
        simp [List.filter_cons, he]
      · have hfresh : p.1 ∉ es.map Prod.fst :=
          hdisj p.1 (by simp)
        rw [show (OptionMap.mk es).insert p.1 p.2
              = OptionMap.mk (es ++ [(p.1, p.2)]) by
            simp [OptionMap.insert, he, hashInsert_fresh _ hfresh]]
        rw [ih (es ++ [(p.1, p.2)]) ?_ (by simpa using hnd.of_cons)]
        · simp only [List.filter_cons, he]
          simp
        · intro k hk
          simp only [List.map_append, List.mem_append] at *
          simp only [List.map_cons, List.nodup_cons] at hnd
          rintro (hke | hke)
          · exact hdisj k (by simp [hk]) (by simpa using hke)
          · simp only [List.map_cons, List.map_nil, List.mem_singleton] at hke
            exact hnd.1 (hke ▸ hk)

/-- OptionMap.options is invariant under permutation of the underlying
entry list, for maps with duplicate-free keys. -/
theorem options_perm {m1 m2 : OptionMap} (hp : m1.entries.Perm m2.entries)
    (hnd : (m1.entries.map Prod.fst).Nodup) : m1.options = m2.options := by
  unfold OptionMap.options
  have hfv : ∀ k, m1.find_value k = m2.find_value k := by
    intro k
    unfold OptionMap.find_value
    rw [find?_perm_nodup hp hnd k]
  have hknown :
      (knownOrder.filterMap (fun k =>
        (m1.find_value (.Known k)).map (fun v => (OptionName.Known k, v))))
      = (knownOrder.filterMap (fun k =>
        (m2.find_value (.Known k)).map (fun v => (OptionName.Known k, v)))) := by
    apply List.filterMap_congr
    intro k _
    rw [hfv]
  have hcustomPerm :
      (m1.entries.filter (fun p => !p.1.is_known)).Perm
        (m2.entries.filter (fun p => !p.1.is_known)) :=
    hp.filter _
  have hndc : ((m1.entries.filter (fun p => !p.1.is_known)).map Prod.fst).Nodup :=
    ((List.filter_sublist _).map Prod.fst).nodup hnd
  have hsortPerm :
      (List.insertionSort pairLe
        (m1.entries.filter (fun p => !p.1.is_known))).Perm
      (List.insertionSort pairLe
        (m2.entries.filter (fun p => !p.1.is_known))) :=
    ((List.perm_insertionSort pairLe _).trans hcustomPerm).trans
      (List.perm_insertionSort pairLe _).symm
  have hcustom :
      List.insertionSort pairLe (m1.entries.filter (fun p => !p.1.is_known))
      = List.insertionSort pairLe (m2.entries.filter (fun p => !p.1.is_known)) :=
    sorted_perm_eq hsortPerm
      (List.sorted_insertionSort pairLe _)
      (List.sorted_insertionSort pairLe _)
      (((List.perm_insertionSort pairLe _).map Prod.fst).nodup_iff.mpr hndc)
  rw [hknown, hcustom]

/-- The strict canonical order on option names: weakly ordered by the
derived Ord and distinct. -/
def nameLt (a b : OptionName) : Prop := nameLeB a b = true ∧ a ≠ b

/-- The keys options() returns are strictly ascending in the canonical
order: present known names in the fixed enumeration order first, then the
custom names in strictly ascending byte-lexicographic order. -/
theorem options_keys_pairwise (m : OptionMap)
    (hnd : (m.entries.map Prod.fst).Nodup) :
    (m.options.map Prod.fst).Pairwise nameLt := by
  unfold OptionMap.options
  rw [List.map_append, List.pairwise_append]
  refine ⟨?_, ?_, ?_⟩
  · rw [List.map_filterMap, List.pairwise_filterMap]
    have hord : knownOrder.Pairwise (fun k1 k2 => knownIdx k1 < knownIdx k2) := by
      decide
    refine hord.imp_of_mem ?_
    intro k1 k2 _ _ hlt b hb b2 hb2
    simp only [Option.map_map, Option.mem_def, Option.map_eq_some'] at hb hb2
    rcases hb with ⟨v1, _, rfl⟩
    rcases hb2 with ⟨v2, _, rfl⟩
    constructor
    · simp only [Function.comp_apply, nameLeB]
      simpa using Nat.le_of_lt hlt
    · simp only [Function.comp_apply, ne_eq, OptionName.Known.injEq]
      intro hcontra
      rw [hcontra] at hlt
      omega
  · have hsorted : (List.insertionSort pairLe
        (m.entries.filter (fun p => !p.1.is_known))).Sorted pairLe :=
      List.sorted_insertionSort pairLe _
    have hndc :
        ((List.insertionSort pairLe
          (m.entries.filter (fun p => !p.1.is_known))).map Prod.fst).Nodup :=
      ((List.perm_insertionSort pairLe _).map Prod.fst).nodup_iff.mpr
        (((List.filter_sublist _).map Prod.fst).nodup hnd)
    have hle : ((List.insertionSort pairLe
        (m.entries.filter (fun p => !p.1.is_known))).map Prod.fst).Pairwise
        (fun a b => nameLeB a b = true) := by
      rw [List.pairwise_map]
      exact hsorted
    have hne : ((List.insertionSort pairLe
        (m.entries.filter (fun p => !p.1.is_known))).map Prod.fst).Pairwise
        (fun a b => a ≠ b) := hndc
    exact hle.and hne
  · intro a ha b hb
    rw [List.map_filterMap] at ha
    rcases List.mem_filterMap.mp ha with ⟨k, _, hk⟩
    simp only [Option.map_map, Option.map_eq_some'] at hk
    rcases hk with ⟨v, _, rfl⟩
    rcases List.mem_map.mp hb with ⟨q, hq, rfl⟩
    have hqmem := (List.perm_insertionSort pairLe _).subset hq
    have hqcustom : q.1.is_known = false := by
      have := List.of_mem_filter hqmem
      simpa using this
    cases hq1 : q.1 with
    | Known _ => rw [hq1] at hqcustom; simp [OptionName.is_known] at hqcustom
    | Custom s =>
        constructor
        · simp [Function.comp_apply, hq1, nameLeB]
        · simp [Function.comp_apply, hq1]

/-! ### C6: canonical ordering and insertion-order independence -/

/-- C6: building a map from the same duplicate-free set of insertions in
any two orders produces the same options() read-out and byte-identical
serialized output, and that read-out is strictly ascending in the one
canonical order: present known names in the fixed enumeration order first,
then custom names sorted byte-lexicographically. -/
theorem c6_canonical_order (l1 l2 : List (OptionName × OptionValue))
    (hnd : (l1.map Prod.fst).Nodup) (hp : l1.Perm l2) :
    (buildMap l1).options = (buildMap l2).options
    ∧ write_options (buildMap l1) = write_options (buildMap l2)
    ∧ ((buildMap l1).options.map Prod.fst).Pairwise nameLt := by
  have hnd2 : (l2.map Prod.fst).Nodup := ((hp.map Prod.fst).nodup_iff).mp hnd
  have hb1 := buildMap_eq_filter hnd
  have hb2 := buildMap_eq_filter hnd2
  have hep : (buildMap l1).entries.Perm (buildMap l2).entries := by
    rw [hb1, hb2]
    exact hp.filter _
  have hnde : ((buildMap l1).entries.map Prod.fst).Nodup := by
    rw [hb1]
    exact ((List.filter_sublist _).map Prod.fst).nodup hnd
  have hopts := options_perm hep hnde
  refine ⟨hopts, ?_, options_keys_pairwise _ hnde⟩
  unfold write_options stanzaLines
  rw [hopts]

/-- C6, witness: two concrete insertion orders of the same options yield
the same canonical read-out. -/
theorem c6_witness :
    (buildMap [(OptionName.Known .Uris, OptionValue.String "https://example.com".toList),
               (OptionName.Custom "option-b".toList, OptionValue.String "value-b".toList),
               (OptionName.Custom "option-a".toList, OptionValue.String "value-a".toList),
               (OptionName.Known .Enabled, OptionValue.Bool true)]).options
      = (buildMap [(OptionName.Known .Enabled, OptionValue.Bool true),
                   (OptionName.Custom "option-a".toList, OptionValue.String "value-a".toList),
                   (OptionName.Custom "option-b".toList, OptionValue.String "value-b".toList),
                   (OptionName.Known .Uris, OptionValue.String "https://example.com".toList)]).options :=
  (c6_canonical_order _ _ (by decide)
    (by
      refine List.Perm.trans (List.Perm.swap _ _ _) ?_
      decide)).1

/-! ### Lemmas about file lines, for the append separator (C5) -/

theorem joinLines_cons (l : Str) (S : List Str) :
    joinLines (l :: S) = l ++ '\n' :: joinLines S := rfl

theorem joinLines_append (A B : List Str) :
    joinLines (A ++ B) = joinLines A ++ joinLines B := by
  induction A with
  | nil => simp [joinLines]
  | cons l t ih => simp [joinLines_cons, ih]

theorem rustLinesAux_nil (acc : Str) :
    rustLinesAux [] acc = if acc.isEmpty then [] else [acc.reverse] := rfl

theorem rustLinesAux_cons (c : Char) (rest acc : Str) :
    rustLinesAux (c :: rest) acc
      = if c = '\n' then dropCR acc.reverse :: rustLinesAux rest []
        else rustLinesAux rest (c :: acc) := rfl

theorem rustLinesAux_ne_nil : ∀ (s acc : Str),
    s ≠ [] ∨ acc ≠ [] → rustLinesAux s acc ≠ []
  | [], acc, h => by
      rcases h with h | h
      · exact absurd rfl h
      · rw [rustLinesAux_nil, if_neg (by simpa using h)]
        simp
  | c :: rest, acc, _ => by
      rw [rustLinesAux_cons]
      by_cases hc : c = '\n'
      · rw [if_pos hc]; simp
      · rw [if_neg hc]
        exact rustLinesAux_ne_nil rest (c :: acc) (Or.inr (by simp))

theorem dropCR_of_getLast_ne {l : Str} (h : l.getLast? ≠ some '\r') :
    dropCR l = l := by
  rw [dropCR, if_neg h]

theorem dropCR_of_no_cr {l : Str} (h : '\r' ∉ l) : dropCR l = l := by
  rw [dropCR, if_neg]
  intro hc
  rcases List.mem_getLast?_eq_getLast hc with ⟨hne, heq⟩
  exact h (heq ▸ List.getLast_mem hne)

theorem rustLinesAux_line : ∀ (l acc w : Str), '\n' ∉ l →
    rustLinesAux (l ++ '\n' :: w) acc
      = dropCR (acc.reverse ++ l) :: rustLinesAux w []
  | [], acc, w, _ => by
      rw [List.nil_append, rustLinesAux_cons, if_pos rfl, List.append_nil]
  | c :: l, acc, w, h => by
      have hc : c ≠ '\n' := fun hcontra => h (hcontra ▸ List.mem_cons_self c l)
      rw [List.cons_append, rustLinesAux_cons, if_neg hc,
        rustLinesAux_line l (c :: acc) w (fun hm => h (List.mem_cons_of_mem c hm))]
      simp

theorem rustLines_joinLines : ∀ (S : List Str),
    (∀ l ∈ S, '\n' ∉ l ∧ '\r' ∉ l) → rustLines (joinLines S) = S
  | [], _ => rfl
  | l :: S, h => by
      obtain ⟨hnl, hcr⟩ := h l (List.mem_cons_self l S)
      rw [joinLines_cons, rustLines, rustLinesAux_line l [] (joinLines S) hnl]
      rw [List.reverse_nil, List.nil_append, dropCR_of_no_cr hcr]
      rw [show rustLinesAux (joinLines S) [] = rustLines (joinLines S) from rfl]
      rw [rustLines_joinLines S (fun x hx => h x (List.mem_cons_of_mem l hx))]

theorem rustLinesAux_append_newline : ∀ {x : Str} (acc w : Str),
    x.getLast? = some '\n' →
    rustLinesAux (x ++ w) acc = rustLinesAux x acc ++ rustLinesAux w []
  | [], _, _, h => by simp at h
  | [c], acc, w, h => by
      have hc : c = '\n' := by simpa using h
      subst hc
      rw [List.cons_append, List.nil_append, rustLinesAux_cons, if_pos rfl,
        rustLinesAux_cons, if_pos rfl]
      simp [rustLinesAux_nil]
  | c :: d :: x, acc, w, h => by
      have h2 : (d :: x).getLast? = some '\n' := by
        rwa [List.getLast?_cons_cons] at h
      by_cases hc : c = '\n'
      · subst hc
        rw [List.cons_append, rustLinesAux_cons, if_pos rfl,
          rustLinesAux_cons, if_pos rfl,
          rustLinesAux_append_newline [] w h2]
        simp
      · rw [List.cons_append, rustLinesAux_cons, if_neg hc,
          rustLinesAux_cons, if_neg hc]
        exact rustLinesAux_append_newline (c :: acc) w h2

theorem getLast?_cons_ne_nil {α : Type} (a : α) {t : List α} (h : t ≠ []) :
    (a :: t).getLast? = t.getLast? := by
  rcases List.exists_cons_of_ne_nil h with ⟨x, t2, rfl⟩
  exact List.getLast?_cons_cons

theorem getLast?_append_ne_nil (a : Str) {b : Str} (h : b ≠ []) :
    (a ++ b).getLast? = b.getLast? := by
  cases hb : b.getLast? with
  | none =>
      rw [List.getLast?_eq_none_iff] at hb
      exact absurd hb h
  | some v => rw [List.getLast?_append, hb]; rfl

theorem rustLinesAux_last_terminal : ∀ (y acc : Str) {l : Str},
    l ≠ [] → '\n' ∉ l → '\r' ∉ l →
    ∃ z : Str, (rustLinesAux (y ++ (l ++ ['\n'])) acc).getLast? = some (z ++ l)
  | [], acc, l, hne, hnl, hcr => by
      have hlast : (acc.reverse ++ l).getLast? ≠ some '\r' := by
        rw [getLast?_append_ne_nil acc.reverse hne]
        intro hcontra
        rcases List.mem_getLast?_eq_getLast hcontra with ⟨hl, heq⟩
        exact hcr (heq ▸ List.getLast_mem hl)
      refine ⟨acc.reverse, ?_⟩
      rw [List.nil_append,
        show l ++ ['\n'] = l ++ '\n' :: ([] : Str) from rfl,
        rustLinesAux_line l acc [] hnl,
        dropCR_of_getLast_ne hlast]
      rfl
  | c :: y, acc, l, hne, hnl, hcr => by
      by_cases hc : c = '\n'
      · subst hc
        rw [List.cons_append, rustLinesAux_cons, if_pos rfl]
        obtain ⟨z, hz⟩ := rustLinesAux_last_terminal y [] hne hnl hcr
        refine ⟨z, ?_⟩
        rw [getLast?_cons_ne_nil _ (rustLinesAux_ne_nil _ _ (Or.inl (by simp)))]
        exact hz
      · rw [List.cons_append, rustLinesAux_cons, if_neg hc]
        exact rustLinesAux_last_terminal y (c :: acc) hne hnl hcr

theorem isBlank_append (a b : Str) :
    isBlank (a ++ b) = (isBlank a && isBlank b) := List.all_append

/-- Every writeln payload of the serializer contains the colon after the
name, so no stanza line is blank. -/
theorem stanzaLines_not_blank (m : OptionMap) :
    ∀ l ∈ stanzaLines m, isBlank l = false := by
  intro l hl
  rcases List.mem_map.mp hl with ⟨p, _, rfl⟩
  rw [renderOptionLine, isBlank_append, isBlank_append]
  rw [show isBlank (": ".toList) = false from rfl]
  simp

/-! ### C5: the append separator -/

/-- C5: appending the same entry twice under the Append policy - for an
entry whose stanza lines are ordinary single lines (no embedded newline or
carriage return, which holds for every non-Multiline option value) -
produces exactly one blank line between the two stanzas, whatever the
initial file contents (empty, ending in a blank line, or ending in a
non-blank line, with or without a trailing newline): the second append
writes exactly one newline before the stanza, and the line sequence of the
result is the lines of the first file followed by one blank line followed
by the stanza lines. -/
theorem c5_append_separator (m : OptionMap) (c : Str)
    (hne : stanzaLines m ≠ [])
    (hclean : ∀ l ∈ stanzaLines m, '\n' ∉ l ∧ '\r' ∉ l) :
    install_to (install_to c m .Append) m .Append
      = install_to c m .Append ++ '\n' :: write_options m
    ∧ rustLines (install_to (install_to c m .Append) m .Append)
      = rustLines (install_to c m .Append) ++ ([] : Str) :: stanzaLines m := by
  rcases List.eq_nil_or_concat (stanzaLines m) with h | ⟨S0, lN, hdecomp⟩
  · exact absurd h hne
  rw [List.concat_eq_append] at hdecomp
  have hlNmem : lN ∈ stanzaLines m := by rw [hdecomp]; simp
  obtain ⟨hlN_nl, hlN_cr⟩ := hclean lN hlNmem
  have hlN_blank : isBlank lN = false := stanzaLines_not_blank m lN hlNmem
  have hlN_ne : lN ≠ [] := by
    intro hcontra
    rw [hcontra] at hlN_blank
    simp [isBlank] at hlN_blank
  have hwrite : write_options m = joinLines S0 ++ (lN ++ ['\n']) := by
    rw [write_options, hdecomp, joinLines_append]
    rfl
  have hshape : install_to c m .Append
      = (c ++ appendSep c ++ joinLines S0) ++ (lN ++ ['\n']) := by
    rw [install_to, if_pos rfl, hwrite]
    simp [List.append_assoc]
  have hlast_nl : (install_to c m .Append).getLast? = some '\n' := by
    rw [hshape, getLast?_append_ne_nil _ (by simp), List.getLast?_concat]
  obtain ⟨z, hz⟩ := rustLinesAux_last_terminal
    (c ++ appendSep c ++ joinLines S0) [] hlN_ne hlN_nl hlN_cr
  have hlastline : (rustLines (install_to c m .Append)).getLast?
      = some (z ++ lN) := by
    rw [hshape]
    exact hz
  have hsep2 : appendSep (install_to c m .Append) = ['\n'] := by
    rw [appendSep, hlastline]
    have hblank : isBlank (z ++ lN) = false := by
      rw [isBlank_append, hlN_blank]
      simp
    simp [hblank]
  have hfirst : install_to (install_to c m .Append) m .Append
      = install_to c m .Append ++ '\n' :: write_options m := by
    rw [install_to, if_pos rfl, hsep2]
    simp
  refine ⟨hfirst, ?_⟩
  rw [hfirst]
  rw [show rustLines (install_to c m .Append ++ '\n' :: write_options m)
        = rustLines (install_to c m .Append)
          ++ rustLinesAux ('\n' :: write_options m) [] from
    rustLinesAux_append_newline [] ('\n' :: write_options m) hlast_nl]
  rw [rustLinesAux_cons, if_pos rfl]
  rw [show dropCR (List.reverse ([] : Str)) = ([] : Str) from rfl]
  rw [show rustLinesAux (write_options m) [] = rustLines (write_options m)
        from rfl]
  rw [show rustLines (write_options m) = stanzaLines m from
    rustLines_joinLines (stanzaLines m) hclean]

/-- C5, witness: a one-option entry appended twice onto a file that does
not end with a newline. -/
theorem c5_witness :
    install_to (install_to "# header".toList
        (OptionMap.mk [(OptionName.Known .Enabled, OptionValue.Bool true)])
        .Append)
      (OptionMap.mk [(OptionName.Known .Enabled, OptionValue.Bool true)])
      .Append
      = install_to "# header".toList
          (OptionMap.mk [(OptionName.Known .Enabled, OptionValue.Bool true)])
          .Append
        ++ '\n' :: write_options
          (OptionMap.mk [(OptionName.Known .Enabled, OptionValue.Bool true)]) :=
  (c5_append_separator
    (OptionMap.mk [(OptionName.Known .Enabled, OptionValue.Bool true)])
    "# header".toList (by decide) (by decide)).1

end Debctl
